import Mathlib

/-!
Verification of the keyboard-shortcut coordination core
(`react-keyboard-shortcuts`): a shallow embedding, in Lean 4, of the
key-combination model, the matcher, the registry/dispatcher
(`KeyboardShortcutManager`), and the event bus, together with proofs about
the properties the specification states for them.

Modelling conventions:
* Strings manipulated by the core (key texts, owner ids, tag names) are
  modelled as `List Char` (`Str`).  The spec fixes the key-combination wire
  format to ASCII, so JavaScript's `toLowerCase`/`toUpperCase`/`trim` are
  modelled by the ASCII case maps `Char.toLower`/`Char.toUpper` and a
  whitespace trim; `String.prototype.split('+')` and `Array.join('+')` are
  modelled by `splitOnPlus`/`joinPlus`, which agree with the JavaScript
  semantics (in particular `"".split('+') == [""]`).
* Callbacks and event-bus listeners are opaque function values; they are
  modelled by identifiers (`Nat`), and "invoking" a callback is modelled by
  its registration appearing in the dispatcher's fired list.
* `Date.now()`/`Math.random()` id generation is modelled by a per-manager
  counter (`nextId`): ids are `"shortcut_" ++ counter`, which preserves the
  uniqueness contract the code relies on.
* A JavaScript `Map` is modelled by an insertion-ordered association list:
  setting an absent key appends, setting a present key updates in place,
  deleting filters — matching `Map`'s key-ordering semantics.
-/

/-- Strings of the modelled program, as lists of characters. -/
abbrev Str := List Char

/-- Shorthand turning a Lean string literal into a modelled string. -/
def str (s : String) : Str := s.toList

/-- ASCII model of JavaScript `toLowerCase`. -/
def toLowerStr (s : Str) : Str := s.map Char.toLower

/-- ASCII model of JavaScript `toUpperCase`. -/
def toUpperStr (s : Str) : Str := s.map Char.toUpper

/-- Model of `String.prototype.split('+')`: `splitOnPlus "" = [""]`,
and each `'+'` starts a new (possibly empty) piece. -/
def splitOnPlus : Str → List Str
  | [] => [[]]
  | c :: rest =>
    if c = '+' then [] :: splitOnPlus rest
    else
      match splitOnPlus rest with
      | [] => [[c]]
      | t :: ts => (c :: t) :: ts

/-- Model of `String.prototype.trim`: drop leading and trailing whitespace. -/
def trimStr (s : Str) : Str :=
  ((s.dropWhile Char.isWhitespace).reverse.dropWhile Char.isWhitespace).reverse

/-- Model of `Array.prototype.join('+')`. -/
def joinPlus : List Str → Str
  | [] => []
  | [p] => p
  | p :: ps => p ++ '+' :: joinPlus ps

/-- Model of `KeyCombination` (src: types, `interface KeyCombination`): canonical
chord representation.  The optional TypeScript flags (`ctrl?: boolean`,
absent ≡ `undefined`, coerced by `!!`) are modelled as `Bool` defaulting
to `false`. -/
structure KeyCombination where
  key : Str
  ctrl : Bool := false
  alt : Bool := false
  shift : Bool := false
  meta : Bool := false
deriving DecidableEq, Repr

/-- The normalization table of `normalizeKeyName` (src: core, `keyMap`). -/
def keyMap : List (Str × Str) :=
  [ (str "esc", str "Escape"), (str "escape", str "Escape"),
    (str "enter", str "Enter"), (str "return", str "Enter"),
    (str "space", str " "), (str "spacebar", str " "),
    (str "tab", str "Tab"),
    (str "backspace", str "Backspace"),
    (str "delete", str "Delete"), (str "del", str "Delete"),
    (str "up", str "ArrowUp"), (str "down", str "ArrowDown"),
    (str "left", str "ArrowLeft"), (str "right", str "ArrowRight"),
    (str "arrowup", str "ArrowUp"), (str "arrowdown", str "ArrowDown"),
    (str "arrowleft", str "ArrowLeft"), (str "arrowright", str "ArrowRight"),
    (str "home", str "Home"), (str "end", str "End"),
    (str "pageup", str "PageUp"), (str "pagedown", str "PageDown"),
    (str "pgup", str "PageUp"), (str "pgdn", str "PageDown"),
    (str "f1", str "F1"), (str "f2", str "F2"), (str "f3", str "F3"),
    (str "f4", str "F4"), (str "f5", str "F5"), (str "f6", str "F6"),
    (str "f7", str "F7"), (str "f8", str "F8"), (str "f9", str "F9"),
    (str "f10", str "F10"), (str "f11", str "F11"), (str "f12", str "F12") ]

/-- Model of `normalizeKeyName` (src: core): map a human key name through `keyMap`,
passing unrecognized names through unchanged (`keyMap[lowerKey] || key`;
no value of `keyMap` is falsy, so `||` is an `Option.getD`). -/
def normalizeKeyName (key : Str) : Str :=
  match keyMap.lookup (toLowerStr key) with
  | some mapped => mapped
  | none => key

/-- One iteration of the `for (const part of parts)` switch in
`parseKeyString` (src: core): modifier tokens set a flag, any other token
overwrites `key` (so, over the fold, the last non-modifier token wins). -/
def parseStep (result : KeyCombination) (part : Str) : KeyCombination :=
  if part == str "ctrl" || part == str "control" then { result with ctrl := true }
  else if part == str "alt" || part == str "option" then { result with alt := true }
  else if part == str "shift" then { result with shift := true }
  else if part == str "meta" || part == str "cmd" || part == str "command"
      || part == str "win" || part == str "windows" then { result with meta := true }
  else { result with key := normalizeKeyName part }

/-- Model of `parseKeyString` (src: core): lower-case, split on `'+'`, trim each
part, then process the parts starting from `{ key: '' }`. -/
def parseKeyString (keyString : Str) : KeyCombination :=
  (((splitOnPlus (toLowerStr keyString)).map trimStr).foldl parseStep { key := [] })

/-- The modifier segment of `keyCombinationToString` (src: core, the
`parts` pushes): fixed order `Ctrl, Alt, Shift, Meta`. -/
def modParts (combo : KeyCombination) : List Str :=
  (if combo.ctrl then [str "Ctrl"] else []) ++
  (if combo.alt then [str "Alt"] else []) ++
  (if combo.shift then [str "Shift"] else []) ++
  (if combo.meta then [str "Meta"] else [])

/-- The `displayKey` local of `keyCombinationToString` (src: core):
`' '` shown as `"Space"`, single characters upper-cased. -/
def displayKeyOf (key : Str) : Str :=
  if key == str " " then str "Space"
  else if key.length = 1 then toUpperStr key
  else key

/-- Model of `keyCombinationToString` (src: core): modifiers in fixed order
`Ctrl, Alt, Shift, Meta`, then the display key, joined with `'+'`. -/
def keyCombinationToString (combo : KeyCombination) : Str :=
  joinPlus (modParts combo ++ [displayKeyOf combo.key])

/-- The fields of a DOM `KeyboardEvent` that the core reads: primary key,
physical code, the four modifier flags, and the target data used by the
input-field suppression policy (`target.tagName`, `target.isContentEditable`). -/
structure KeyEvent where
  key : Str
  code : Str
  ctrlKey : Bool
  altKey : Bool
  shiftKey : Bool
  metaKey : Bool
  tagName : Str
  isContentEditable : Bool
deriving DecidableEq, Repr

/-- Model of `matchesKeyCombination` (src: core): case-folded key comparison with a
space-bar special case, and the per-flag modifier comparison (including the
asymmetric ctrl/meta treatment). -/
def matchesKeyCombination (event : KeyEvent) (combo : KeyCombination) : Bool :=
  let eventKey := if event.key.length = 1 then toLowerStr event.key else event.key
  let comboKey := if combo.key.length = 1 then toLowerStr combo.key else combo.key
  let keyMatches := eventKey == comboKey || (comboKey == str " " && event.code == str "Space")
  let ctrlMatches := combo.ctrl == (event.ctrlKey || event.metaKey)
  let altMatches := combo.alt == event.altKey
  let shiftMatches := combo.shift == event.shiftKey
  let metaMatches := if combo.meta then event.metaKey else true
  keyMatches && ctrlMatches && altMatches && shiftMatches &&
    (if combo.meta then metaMatches else true)

/-- The key-comparison part of `matchesKeyCombination` (src: core, the
`keyMatches` local), named so theorems can refer to it. -/
def keyTokenMatches (event : KeyEvent) (combo : KeyCombination) : Bool :=
  let eventKey := if event.key.length = 1 then toLowerStr event.key else event.key
  let comboKey := if combo.key.length = 1 then toLowerStr combo.key else combo.key
  eventKey == comboKey || (comboKey == str " " && event.code == str "Space")

/-- Model of `RegisteredShortcut` (src: types): one registered binding.  The callback
function value is modelled by an opaque identifier. -/
structure RegisteredShortcut where
  id : Str
  componentId : Str
  keys : KeyCombination
  callback : Nat
  description : Str
  enabled : Bool
  preventDefault : Bool
  stopPropagation : Bool
  registeredAt : Nat
deriving DecidableEq, Repr

/-- Model of `RegisterOptions` (src: types): all fields optional. -/
structure RegisterOptions where
  description : Option Str := none
  preventDefault : Option Bool := none
  stopPropagation : Option Bool := none
  enabled : Option Bool := none
deriving DecidableEq, Repr

/-- Model of `ShortcutDefinition` (src: types): key spec either as text or as an
already-structured combination. -/
structure ShortcutDefinition where
  keys : Sum Str KeyCombination
  callback : Nat
  options : Option RegisterOptions := none
deriving DecidableEq, Repr

/-- Model of `ManagerEventType` (src: types). -/
inductive ManagerEventType where
  | register
  | deregister
  | enable
  | disable
  | clear
deriving DecidableEq, Repr

/-- Model of `ManagerEvent` (src: types): `{ type, componentId, keys? }`. -/
structure ManagerEvent where
  type : ManagerEventType
  componentId : Str
  keys : Option (List Str)
deriving DecidableEq, Repr

/-- The mutable state of `KeyboardShortcutManager` (src: core): the
registry `Map` (insertion-ordered association list), the listening flag,
the `Set` of event-bus listeners (insertion-ordered, duplicate-free by
construction), and the counter modelling unique-id generation and the
`Date.now()` timestamps. -/
structure ManagerState where
  shortcuts : List (Str × List RegisteredShortcut)
  isListening : Bool
  eventListeners : List Nat
  nextId : Nat
deriving DecidableEq, Repr

/-- The state of a freshly constructed manager. -/
def initialState : ManagerState :=
  { shortcuts := [], isListening := false, eventListeners := [], nextId := 0 }

/-- Model of `generateId` (src: core): modelled by the manager's counter. -/
def generateId (n : Nat) : Str := str ("shortcut_" ++ toString n)

/-- Model of `Map.set` on a present key: update the entry in place, preserving
insertion order. -/
def updateOwner (l : List (Str × List RegisteredShortcut)) (componentId : Str)
    (f : List RegisteredShortcut → List RegisteredShortcut) :
    List (Str × List RegisteredShortcut) :=
  l.map (fun p => if p.1 = componentId then (p.1, f p.2) else p)

namespace KeyboardShortcutManager

/-- Model of `startListening` (src: core): subscribe to the key-event stream if not
already subscribed (the model assumes a `window` exists). -/
def startListening (st : ManagerState) : ManagerState :=
  if !st.isListening then { st with isListening := true } else st

/-- Model of `stopListening` (src: core). -/
def stopListening (st : ManagerState) : ManagerState :=
  if st.isListening then { st with isListening := false } else st

/-- Construction of one `RegisteredShortcut` inside `register`'s loop
(src: core): parse textual key specs, apply option defaults
(`enabled`/`preventDefault` default true via `!== false`,
`stopPropagation` default false via `|| false`, `description` default `''`). -/
def buildShortcut (componentId : Str) (counter : Nat) (d : ShortcutDefinition) :
    RegisteredShortcut :=
  let keys := match d.keys with
    | .inl s => parseKeyString s
    | .inr c => c
  { id := generateId counter,
    componentId := componentId,
    keys := keys,
    callback := d.callback,
    description := (d.options.bind (·.description)).getD [],
    enabled := (d.options.bind (·.enabled)) != some false,
    preventDefault := (d.options.bind (·.preventDefault)) != some false,
    stopPropagation := (d.options.bind (·.stopPropagation)).getD false,
    registeredAt := counter }

/-- Model of `register` (src: core): create the owner's entry if absent, append one
`RegisteredShortcut` per definition, start listening, emit a `register`
event carrying the generated ids; returns (state, generated ids, emitted
events). -/
def register (st : ManagerState) (componentId : Str)
    (definitions : List ShortcutDefinition) :
    ManagerState × List Str × List ManagerEvent :=
  let shortcuts0 :=
    if (st.shortcuts.lookup componentId).isNone
    then st.shortcuts ++ [(componentId, [])]
    else st.shortcuts
  let newRegs := definitions.enum.map (fun p => buildShortcut componentId (st.nextId + p.1) p.2)
  let registeredIds := newRegs.map (·.id)
  let shortcuts1 := updateOwner shortcuts0 componentId (fun regs => regs ++ newRegs)
  let st1 := startListening
    { st with shortcuts := shortcuts1, nextId := st.nextId + definitions.length }
  (st1, registeredIds, [⟨.register, componentId, some registeredIds⟩])

/-- Model of `deregister` (src: core): early `return` when the owner is unknown
(note: before any event is emitted); otherwise remove every registration
whose canonical form equals one of the parsed key texts, delete the owner
entry if its list became empty, stop listening if the registry map became
empty, and emit a `deregister` event. -/
def deregister (st : ManagerState) (componentId : Str) (keyStrings : List Str) :
    ManagerState × List ManagerEvent :=
  match st.shortcuts.lookup componentId with
  | none => (st, [])
  | some componentShortcuts =>
    let keyCombinations := keyStrings.map parseKeyString
    let remaining := componentShortcuts.filter (fun shortcut =>
      ! keyCombinations.any (fun combo =>
        keyCombinationToString combo == keyCombinationToString shortcut.keys))
    let shortcuts1 :=
      if remaining.length = 0
      then st.shortcuts.filter (fun p => p.1 != componentId)
      else updateOwner st.shortcuts componentId (fun _ => remaining)
    let st1 := { st with shortcuts := shortcuts1 }
    let st2 := if shortcuts1.length = 0 then stopListening st1 else st1
    (st2, [⟨.deregister, componentId, some keyStrings⟩])

/-- Model of `enable` (src: core): early `return` when the owner is unknown (before
any event is emitted); otherwise set `enabled := true` on registrations
whose canonical form equals one of the parsed key texts, and emit. -/
def enable (st : ManagerState) (componentId : Str) (keyStrings : List Str) :
    ManagerState × List ManagerEvent :=
  match st.shortcuts.lookup componentId with
  | none => (st, [])
  | some _ =>
    let keyCombinations := keyStrings.map parseKeyString
    let shortcuts1 := updateOwner st.shortcuts componentId (fun regs =>
      regs.map (fun shortcut =>
        if keyCombinations.any (fun combo =>
            keyCombinationToString combo == keyCombinationToString shortcut.keys)
        then { shortcut with enabled := true } else shortcut))
    ({ st with shortcuts := shortcuts1 }, [⟨.enable, componentId, some keyStrings⟩])

/-- Model of `disable` (src: core): mirror image of `enable`. -/
def disable (st : ManagerState) (componentId : Str) (keyStrings : List Str) :
    ManagerState × List ManagerEvent :=
  match st.shortcuts.lookup componentId with
  | none => (st, [])
  | some _ =>
    let keyCombinations := keyStrings.map parseKeyString
    let shortcuts1 := updateOwner st.shortcuts componentId (fun regs =>
      regs.map (fun shortcut =>
        if keyCombinations.any (fun combo =>
            keyCombinationToString combo == keyCombinationToString shortcut.keys)
        then { shortcut with enabled := false } else shortcut))
    ({ st with shortcuts := shortcuts1 }, [⟨.disable, componentId, some keyStrings⟩])

/-- Model of `clearComponent` (src: core): unconditionally delete the owner's entry,
stop listening if the registry map became empty, and emit a `clear` event
(with no `keys`). -/
def clearComponent (st : ManagerState) (componentId : Str) :
    ManagerState × List ManagerEvent :=
  let shortcuts1 := st.shortcuts.filter (fun p => p.1 != componentId)
  let st1 := { st with shortcuts := shortcuts1 }
  let st2 := if shortcuts1.length = 0 then stopListening st1 else st1
  (st2, [⟨.clear, componentId, none⟩])

/-- Model of `destroy` (src: core): stop listening, clear the registry and the
event-bus listener set. -/
def destroy (st : ManagerState) : ManagerState :=
  { stopListening st with shortcuts := [], eventListeners := [] }

/-- Model of `getComponentKeys` (src: core): `this.shortcuts.get(componentId) || []`. -/
def getComponentKeys (st : ManagerState) (componentId : Str) :
    List RegisteredShortcut :=
  (st.shortcuts.lookup componentId).getD []

/-- Model of `getComponentIds` (src: core). -/
def getComponentIds (st : ManagerState) : List Str := st.shortcuts.map (·.1)

/-- Model of `hasComponent` (src: core). -/
def hasComponent (st : ManagerState) (componentId : Str) : Bool :=
  (st.shortcuts.lookup componentId).isSome

/-- Model of `subscribe` (src: core): `Set.add` semantics — appending only when the
listener is not already present. -/
def subscribe (st : ManagerState) (listener : Nat) : ManagerState :=
  if st.eventListeners.contains listener then st
  else { st with eventListeners := st.eventListeners ++ [listener] }

/-- The unsubscribe closure returned by `subscribe` (src: core):
`Set.delete` semantics. -/
def unsubscribeListener (st : ManagerState) (listener : Nat) : ManagerState :=
  { st with eventListeners := st.eventListeners.filter (fun l => l != listener) }

/-- Model of `emit` (src: core): invoke every current listener, in subscription
order, with the event; modelled as the ordered list of
(listener, event) invocations. -/
def emit (st : ManagerState) (e : ManagerEvent) : List (Nat × ManagerEvent) :=
  st.eventListeners.map (fun l => (l, e))

/-- The input-field test at the top of `handleKeyDown` (src: core):
`tagName === 'INPUT' || tagName === 'TEXTAREA' || isContentEditable`. -/
def isInputField (e : KeyEvent) : Bool :=
  e.tagName == str "INPUT" || e.tagName == str "TEXTAREA" || e.isContentEditable

/-- The per-registration firing condition of `handleKeyDown`'s inner loop
(src: core): skip when disabled (`continue`), skip when not matching, and
skip when in an input field with `ctrl`, `alt` and `meta` all unset. -/
def shouldFire (e : KeyEvent) (shortcut : RegisteredShortcut) : Bool :=
  shortcut.enabled && matchesKeyCombination e shortcut.keys &&
    !(isInputField e && !shortcut.keys.ctrl && !shortcut.keys.alt && !shortcut.keys.meta)

/-- Model of `handleKeyDown` (src: core): iterate every owner entry of the registry
in map order, then every registration in list order, invoking each firing
registration's callback; modelled as the ordered list of fired
registrations (the callback of each fired registration runs, with
`preventDefault`/`stopPropagation` applied per its stored flags). -/
def handleKeyDown (st : ManagerState) (e : KeyEvent) : List RegisteredShortcut :=
  st.shortcuts.foldl (fun acc p =>
    p.2.foldl (fun acc2 s => if shouldFire e s then acc2 ++ [s] else acc2) acc) []

end KeyboardShortcutManager

/-! ### Reachable manager states -/

/-- States reachable from a fresh manager through the public operations. -/
inductive Reachable : ManagerState → Prop where
  | init : Reachable initialState
  | register (st : ManagerState) (cid : Str) (defs : List ShortcutDefinition) :
      Reachable st → Reachable (KeyboardShortcutManager.register st cid defs).1
  | deregister (st : ManagerState) (cid : Str) (keys : List Str) :
      Reachable st → Reachable (KeyboardShortcutManager.deregister st cid keys).1
  | enable (st : ManagerState) (cid : Str) (keys : List Str) :
      Reachable st → Reachable (KeyboardShortcutManager.enable st cid keys).1
  | disable (st : ManagerState) (cid : Str) (keys : List Str) :
      Reachable st → Reachable (KeyboardShortcutManager.disable st cid keys).1
  | clearComponent (st : ManagerState) (cid : Str) :
      Reachable st → Reachable (KeyboardShortcutManager.clearComponent st cid).1
  | destroy (st : ManagerState) :
      Reachable st → Reachable (KeyboardShortcutManager.destroy st)
  | subscribe (st : ManagerState) (l : Nat) :
      Reachable st → Reachable (KeyboardShortcutManager.subscribe st l)
  | unsubscribe (st : ManagerState) (l : Nat) :
      Reachable st → Reachable (KeyboardShortcutManager.unsubscribeListener st l)

/-- Reachability when every `register` call supplies at least one
definition (the empty-definitions call is the sole way to create an owner
entry with an empty registration list). -/
inductive ReachableNE : ManagerState → Prop where
  | init : ReachableNE initialState
  | register (st : ManagerState) (cid : Str) (defs : List ShortcutDefinition) :
      defs ≠ [] → ReachableNE st →
      ReachableNE (KeyboardShortcutManager.register st cid defs).1
  | deregister (st : ManagerState) (cid : Str) (keys : List Str) :
      ReachableNE st → ReachableNE (KeyboardShortcutManager.deregister st cid keys).1
  | enable (st : ManagerState) (cid : Str) (keys : List Str) :
      ReachableNE st → ReachableNE (KeyboardShortcutManager.enable st cid keys).1
  | disable (st : ManagerState) (cid : Str) (keys : List Str) :
      ReachableNE st → ReachableNE (KeyboardShortcutManager.disable st cid keys).1
  | clearComponent (st : ManagerState) (cid : Str) :
      ReachableNE st → ReachableNE (KeyboardShortcutManager.clearComponent st cid).1
  | destroy (st : ManagerState) :
      ReachableNE st → ReachableNE (KeyboardShortcutManager.destroy st)
  | subscribe (st : ManagerState) (l : Nat) :
      ReachableNE st → ReachableNE (KeyboardShortcutManager.subscribe st l)
  | unsubscribe (st : ManagerState) (l : Nat) :
      ReachableNE st → ReachableNE (KeyboardShortcutManager.unsubscribeListener st l)

/-! ### Reference-level model of `getAllShortcuts` (src: core,
`return new Map(this.shortcuts)`)

The pure state model above cannot express the aliasing the spec's
"defensive copy" claim is about, so this small heap model makes the
JavaScript object graph explicit: `Map` objects and registration arrays
live in a heap and are referred to by indices.  `new Map(m)` allocates a
fresh map object holding the same `(key, array-reference)` entries, so the
entry lists are copied but the registration arrays are shared. -/

namespace SnapshotModel

/-- The heap: map objects (entries of owner id × array reference) and
registration arrays, addressed by index. -/
structure Heap where
  maps : List (List (Str × Nat))
  arrays : List (List RegisteredShortcut)
deriving DecidableEq, Repr

/-- What the registry whose `Map` lives at `mref` looks like to every
reader (accessors and dispatch): owner ids paired with the current
contents of their registration arrays. -/
def viewOf (h : Heap) (mref : Nat) : List (Str × List RegisteredShortcut) :=
  (h.maps.getD mref []).map (fun p => (p.1, h.arrays.getD p.2 []))

/-- Model of `getAllShortcuts` (src: core): `new Map(this.shortcuts)` — allocate a
fresh map object with the same entries (same array references); returns
the new heap and the fresh map's reference. -/
def getAllShortcuts (h : Heap) (mref : Nat) : Heap × Nat :=
  ({ h with maps := h.maps ++ [h.maps.getD mref []] }, h.maps.length)

/-- A caller mutating the returned mapping: `Map.delete` on the map object
at `mref`. -/
def mapDelete (h : Heap) (mref : Nat) (k : Str) : Heap :=
  { h with maps := h.maps.set mref ((h.maps.getD mref []).filter (fun p => p.1 != k)) }

/-- A caller mutating a registration list reached through the returned
mapping: `Array.push` on the array at `aref`. -/
def arrayPush (h : Heap) (aref : Nat) (r : RegisteredShortcut) : Heap :=
  { h with arrays := h.arrays.set aref ((h.arrays.getD aref []) ++ [r]) }

end SnapshotModel

/-! ### Concrete fixtures used by counterexamples and witnesses -/

/-- The combination `"s"` (no modifiers). -/
def wCombS : KeyCombination := { key := str "s" }

/-- The combination `"Ctrl+S"`. -/
def wCombCtrlS : KeyCombination := { key := str "s", ctrl := true }

/-- A registration for `"s"` owned by `"o"`. -/
def wRegPlain : RegisteredShortcut :=
  { id := str "shortcut_0", componentId := str "o", keys := wCombS, callback := 0,
    description := [], enabled := true, preventDefault := true,
    stopPropagation := false, registeredAt := 0 }

/-- A registration for `"Ctrl+S"` owned by `"o"`. -/
def wRegCtrl : RegisteredShortcut :=
  { id := str "shortcut_1", componentId := str "o", keys := wCombCtrlS, callback := 1,
    description := [], enabled := true, preventDefault := true,
    stopPropagation := false, registeredAt := 1 }

/-- A second registration for `"s"` owned by `"o"` (identical combination
to `wRegPlain`, registered later). -/
def wRegB : RegisteredShortcut :=
  { id := str "shortcut_2", componentId := str "o", keys := wCombS, callback := 2,
    description := [], enabled := true, preventDefault := true,
    stopPropagation := false, registeredAt := 2 }

/-- Owner `"o"` holding `wRegPlain` then `wRegB`. -/
def wStateAB : ManagerState :=
  { shortcuts := [(str "o", [wRegPlain, wRegB])], isListening := true,
    eventListeners := [], nextId := 3 }

/-- Owner `"o"` holding `wRegPlain` then `wRegCtrl`. -/
def wStateInput : ManagerState :=
  { shortcuts := [(str "o", [wRegPlain, wRegCtrl])], isListening := true,
    eventListeners := [], nextId := 3 }

/-- A plain `s` key press on a `DIV` target. -/
def wEvDivS : KeyEvent :=
  { key := str "s", code := str "KeyS", ctrlKey := false, altKey := false,
    shiftKey := false, metaKey := false, tagName := str "DIV",
    isContentEditable := false }

/-- A plain `s` key press on an `INPUT` target. -/
def wEvInputS : KeyEvent :=
  { key := str "s", code := str "KeyS", ctrlKey := false, altKey := false,
    shiftKey := false, metaKey := false, tagName := str "INPUT",
    isContentEditable := false }

/-- A `Ctrl+s` key press on an `INPUT` target. -/
def wEvInputCtrlS : KeyEvent :=
  { key := str "s", code := str "KeyS", ctrlKey := true, altKey := false,
    shiftKey := false, metaKey := false, tagName := str "INPUT",
    isContentEditable := false }

/-- The state after `register("a", [])` on a fresh manager: listening is
on, yet owner `"a"` holds an empty registration list. -/
def cexState1 : ManagerState :=
  (KeyboardShortcutManager.register initialState (str "a") []).1

/-- A definition for `"Ctrl+Z"`. -/
def wDefA : ShortcutDefinition := { keys := .inl (str "Ctrl+Z"), callback := 7 }

/-- A manager with two event-bus subscribers. -/
def wBusState : ManagerState :=
  { shortcuts := [], isListening := false, eventListeners := [5, 9], nextId := 0 }

/-- A `clear` event for owner `"o"`. -/
def wEvClear : ManagerEvent := { type := .clear, componentId := str "o", keys := none }

/-- Heap for the snapshot counterexample: the registry map at reference 0
maps owner `"a"` to the registration array at reference 0. -/
def cexHeap : SnapshotModel.Heap :=
  { maps := [[(str "a", 0)]], arrays := [[wRegPlain]] }

/-- The tokens that the `parseKeyString` switch treats as modifiers. -/
def isModifierToken (t : Str) : Bool :=
  t == str "ctrl" || t == str "control" || t == str "alt" || t == str "option" ||
  t == str "shift" || t == str "meta" || t == str "cmd" || t == str "command" ||
  t == str "win" || t == str "windows"

/-- The right-hand sides of the `normalizeKeyName` table. -/
def mapValues : List Str := keyMap.map (·.2)

/-- What holds of every token produced by lower-casing, splitting on `'+'`
and trimming: it is `'+'`-free, lower-case-fixed and trim-fixed. -/
def GoodToken (t : Str) : Prop := '+' ∉ t ∧ toLowerStr t = t ∧ trimStr t = t

/-- A key that fell through the `normalizeKeyName` table: `'+'`-free,
lower-case-fixed, trim-fixed, not a modifier token, not a table key. -/
def PlainKey (k : Str) : Prop :=
  '+' ∉ k ∧ toLowerStr k = k ∧ trimStr k = k ∧ isModifierToken k = false ∧
    keyMap.lookup k = none

/-- Invariant of the `key` field of any `parseKeyString` result. -/
def GoodKey (k : Str) : Prop := k ∈ mapValues ∨ PlainKey k

/-- The lower-cased modifier segment, as the parser will see it. -/
def modToks (c : KeyCombination) : List Str :=
  (if c.ctrl then [str "ctrl"] else []) ++ (if c.alt then [str "alt"] else []) ++
  (if c.shift then [str "shift"] else []) ++ (if c.meta then [str "meta"] else [])

/-! ### Character-level facts about the ASCII case maps -/

/-- Applying `Char.ofNat` to a valid code point round-trips through `toNat`. -/
theorem toNat_ofNat_valid (n : Nat) (h : n.isValidChar) : (Char.ofNat n).toNat = n := by
  simp [Char.ofNat, dif_pos h, Char.ofNatAux, Char.toNat, UInt32.toNat]

/-- Characters with equal code points are equal. -/
theorem char_eq_of_toNat_eq {a b : Char} (h : a.toNat = b.toNat) : a = b :=
  Char.ext (UInt32.ext h)

/-- Code-point characterization of `Char.toLower`. -/
theorem lower_toNat (c : Char) :
    (Char.toLower c).toNat = if c.toNat ≥ 65 ∧ c.toNat ≤ 90 then c.toNat + 32 else c.toNat := by
  unfold Char.toLower
  split
  · next h => rw [if_pos h]; exact toNat_ofNat_valid _ (Or.inl (by omega))
  · next h => rw [if_neg h]

/-- Code-point characterization of `Char.toUpper`. -/
theorem upper_toNat (c : Char) :
    (Char.toUpper c).toNat = if c.toNat ≥ 97 ∧ c.toNat ≤ 122 then c.toNat - 32 else c.toNat := by
  unfold Char.toUpper
  split
  · next h => rw [if_pos h]; exact toNat_ofNat_valid _ (Or.inl (by omega))
  · next h => rw [if_neg h]

/-- Lower-casing is idempotent. -/
theorem lower_idem (c : Char) : Char.toLower (Char.toLower c) = Char.toLower c := by
  apply char_eq_of_toNat_eq
  have h1 := lower_toNat (Char.toLower c)
  have h2 := lower_toNat c
  rw [h2] at h1
  rw [h1, h2]
  split_ifs <;> omega

/-- On a lower-case-fixed character, upper-casing is undone by lower-casing. -/
theorem lower_upper_of_fixed {c : Char} (h : Char.toLower c = c) :
    Char.toLower (Char.toUpper c) = c := by
  apply char_eq_of_toNat_eq
  have hfix : (Char.toLower c).toNat = c.toNat := by rw [h]
  have h2 := lower_toNat c
  have h3 := upper_toNat c
  have h4 := lower_toNat (Char.toUpper c)
  rw [h2] at hfix
  rw [h4, h3]
  split_ifs at hfix ⊢ <;> omega

theorem plus_toNat : ('+' : Char).toNat = 43 := rfl

/-- Case maps neither produce nor destroy `'+'`. -/
theorem lower_eq_plus {c : Char} (h : Char.toLower c = '+') : c = '+' := by
  apply char_eq_of_toNat_eq
  have h1 := lower_toNat c
  rw [h, plus_toNat] at h1
  rw [plus_toNat]
  split_ifs at h1 <;> omega

theorem upper_eq_plus {c : Char} (h : Char.toUpper c = '+') : c = '+' := by
  apply char_eq_of_toNat_eq
  have h1 := upper_toNat c
  rw [h, plus_toNat] at h1
  rw [plus_toNat]
  split_ifs at h1 <;> omega

/-! ### Facts about `splitOnPlus`, `joinPlus`, `trimStr`, `toLowerStr` -/

theorem splitOnPlus_ne_nil (s : Str) : splitOnPlus s ≠ [] := by
  induction s with
  | nil => simp [splitOnPlus]
  | cons c rest ih =>
    unfold splitOnPlus
    split
    · simp
    · cases h : splitOnPlus rest with
      | nil => simp
      | cons t ts => simp

theorem not_plus_mem_splitOnPlus {s t : Str} (ht : t ∈ splitOnPlus s) : '+' ∉ t := by
  induction s generalizing t with
  | nil => simp [splitOnPlus] at ht; simp [ht]
  | cons c rest ih =>
    unfold splitOnPlus at ht
    split at ht
    · rcases List.mem_cons.mp ht with rfl | h
      · simp
      · exact ih h
    · next hc =>
      rcases h : splitOnPlus rest with _ | ⟨t0, ts⟩
      · exact absurd h (splitOnPlus_ne_nil rest)
      · rw [h] at ht
        rcases List.mem_cons.mp ht with rfl | hmem
        · intro hp
          rcases List.mem_cons.mp hp with hp | hp
          · exact hc hp.symm
          · exact ih (h ▸ List.mem_cons_self t0 ts) hp
        · exact ih (h ▸ List.mem_cons.mpr (Or.inr hmem))

theorem mem_of_mem_splitOnPlus {s t : Str} {a : Char}
    (ht : t ∈ splitOnPlus s) (ha : a ∈ t) : a ∈ s := by
  induction s generalizing t with
  | nil => simp [splitOnPlus] at ht; subst ht; simp at ha
  | cons c rest ih =>
    unfold splitOnPlus at ht
    split at ht
    · rcases List.mem_cons.mp ht with rfl | h
      · simp at ha
      · exact List.mem_cons.mpr (Or.inr (ih h ha))
    · rcases h : splitOnPlus rest with _ | ⟨t0, ts⟩
      · exact absurd h (splitOnPlus_ne_nil rest)
      · rw [h] at ht
        rcases List.mem_cons.mp ht with rfl | hmem
        · rcases List.mem_cons.mp ha with rfl | hmem2
          · exact List.mem_cons_self a rest
          · exact List.mem_cons.mpr (Or.inr (ih (h ▸ List.mem_cons_self t0 ts) hmem2))
        · exact List.mem_cons.mpr (Or.inr (ih (h ▸ List.mem_cons.mpr (Or.inr hmem)) ha))

theorem map_fixed_iff {l : List Char} {f : Char → Char} :
    l.map f = l ↔ ∀ c ∈ l, f c = c := by
  induction l with
  | nil => simp
  | cons a t ih => simp [ih]

/-- Splitting a `'+'`-free string gives back the string as its only piece. -/
theorem splitOnPlus_no_plus {p : Str} (h : '+' ∉ p) : splitOnPlus p = [p] := by
  induction p with
  | nil => simp [splitOnPlus]
  | cons c rest ih =>
    have hc : c ≠ '+' := fun hc => h (hc ▸ List.mem_cons_self c rest)
    have hrest : '+' ∉ rest := fun hm => h (List.mem_cons.mpr (Or.inr hm))
    unfold splitOnPlus
    rw [if_neg hc, ih hrest]

/-- Splitting past a `'+'`-free chunk followed by a literal `'+'`. -/
theorem splitOnPlus_append_plus {p : Str} (r : Str) (h : '+' ∉ p) :
    splitOnPlus (p ++ '+' :: r) = p :: splitOnPlus r := by
  induction p with
  | nil => simp [splitOnPlus]
  | cons c rest ih =>
    have hc : c ≠ '+' := fun hc => h (hc ▸ List.mem_cons_self c rest)
    have hrest : '+' ∉ rest := fun hm => h (List.mem_cons.mpr (Or.inr hm))
    show splitOnPlus (c :: (rest ++ '+' :: r)) = (c :: rest) :: splitOnPlus r
    conv_lhs => rw [splitOnPlus]
    rw [if_neg hc, ih hrest]

theorem dropWhile_head_false {p : Char → Bool} {l : Str} {a : Char} {t : Str}
    (h : l.dropWhile p = a :: t) : p a = false := by
  induction l with
  | nil => simp [List.dropWhile] at h
  | cons b l ih =>
    rw [List.dropWhile_cons] at h
    split at h
    · exact ih h
    · next hb =>
      cases h
      exact Bool.not_eq_true _ ▸ (by simpa using hb)

theorem dropWhile_eq_self_of_head {p : Char → Bool} {l : Str}
    (h : ∀ a t, l = a :: t → p a = false) : l.dropWhile p = l := by
  cases l with
  | nil => rfl
  | cons a t => rw [List.dropWhile_cons, h a t rfl]; simp

theorem dropWhile_idem (p : Char → Bool) (l : Str) :
    (l.dropWhile p).dropWhile p = l.dropWhile p := by
  apply dropWhile_eq_self_of_head
  intro a t h
  exact dropWhile_head_false h

/-- Trimming is idempotent. -/
theorem trimStr_idem (s : Str) : trimStr (trimStr s) = trimStr s := by
  unfold trimStr
  set w := s.dropWhile Char.isWhitespace with hw
  set z := w.reverse.dropWhile Char.isWhitespace with hz
  have hstep1 : z.reverse.dropWhile Char.isWhitespace = z.reverse := by
    apply dropWhile_eq_self_of_head
    intro a t h
    have : w.reverse = w.reverse.takeWhile Char.isWhitespace ++ z :=
      (List.takeWhile_append_dropWhile Char.isWhitespace w.reverse).symm
    have hwz : w = z.reverse ++ (w.reverse.takeWhile Char.isWhitespace).reverse := by
      have := congrArg List.reverse this
      simpa using this
    rw [h] at hwz
    cases hww : w with
    | nil => rw [hww] at hwz; simp at hwz
    | cons b u =>
      have hb : Char.isWhitespace b = false := dropWhile_head_false (hw ▸ hww)
      rw [hww] at hwz
      have : b = a := by
        have := congrArg (·.head?) hwz
        simpa using this
      rw [← this]
      exact hb
  rw [hstep1]
  simp only [List.reverse_reverse]
  rw [dropWhile_idem]

/-- Characters of `trimStr s` are characters of `s`. -/
theorem mem_of_mem_trimStr {s : Str} {a : Char} (h : a ∈ trimStr s) : a ∈ s := by
  unfold trimStr at h
  rw [List.mem_reverse] at h
  have h1 := (List.dropWhile_sublist Char.isWhitespace).mem h
  rw [List.mem_reverse] at h1
  exact (List.dropWhile_sublist Char.isWhitespace).mem h1

/-- Lower-casing distributes over `joinPlus` (the separator is fixed by
lower-casing). -/
theorem toLowerStr_joinPlus (l : List Str) :
    toLowerStr (joinPlus l) = joinPlus (l.map toLowerStr) := by
  induction l with
  | nil => rfl
  | cons p ps ih =>
    cases ps with
    | nil => rfl
    | cons q qs =>
      show toLowerStr (p ++ '+' :: joinPlus (q :: qs)) = _
      have : toLowerStr (p ++ '+' :: joinPlus (q :: qs))
          = toLowerStr p ++ '+' :: toLowerStr (joinPlus (q :: qs)) := by
        simp [toLowerStr]
      rw [this, ih]
      rfl

/-- Splitting undoes joining for a nonempty list of `'+'`-free pieces. -/
theorem splitOnPlus_joinPlus {l : List Str} (hne : l ≠ [])
    (h : ∀ p ∈ l, '+' ∉ p) : splitOnPlus (joinPlus l) = l := by
  induction l with
  | nil => exact absurd rfl hne
  | cons p ps ih =>
    cases ps with
    | nil => exact splitOnPlus_no_plus (h p (List.mem_cons_self p []))
    | cons q qs =>
      show splitOnPlus (p ++ '+' :: joinPlus (q :: qs)) = _
      rw [splitOnPlus_append_plus _ (h p (List.mem_cons_self p _))]
      rw [ih (by simp) (fun x hx => h x (List.mem_cons.mpr (Or.inr hx)))]

/-! ### The canonical-form invariant behind round-trip stability -/


theorem goodKey_nil : GoodKey [] :=
  Or.inr ⟨by decide, rfl, rfl, by decide, by decide⟩

/-- Every token fed to the `parseKeyString` switch is a `GoodToken`. -/
theorem tokens_good (s : Str) :
    ∀ t ∈ (splitOnPlus (toLowerStr s)).map trimStr, GoodToken t := by
  intro t ht
  rcases List.mem_map.mp ht with ⟨piece, hpiece, rfl⟩
  refine ⟨?_, ?_, trimStr_idem piece⟩
  · intro hp
    exact not_plus_mem_splitOnPlus hpiece (mem_of_mem_trimStr hp)
  · apply map_fixed_iff.mpr
    intro c hc
    have hcs : c ∈ toLowerStr s :=
      mem_of_mem_splitOnPlus hpiece (mem_of_mem_trimStr hc)
    rcases List.mem_map.mp hcs with ⟨d, _, rfl⟩
    exact lower_idem d

theorem lookup_mem_values {m : List (Str × Str)} {x v : Str}
    (h : m.lookup x = some v) : v ∈ m.map (·.2) := by
  induction m with
  | nil => simp [List.lookup] at h
  | cons p rest ih =>
    rw [List.lookup] at h
    split at h
    · cases h; exact List.mem_map.mpr ⟨p, List.mem_cons_self p rest, rfl⟩
    · exact List.mem_cons.mpr (Or.inr (ih h))

/-- The `parseKeyString` switch preserves the key invariant. -/
theorem parseStep_goodKey {r : KeyCombination} {t : Str}
    (hr : GoodKey r.key) (ht : GoodToken t) : GoodKey (parseStep r t).key := by
  unfold parseStep
  split_ifs with h1 h2 h3 h4
  · exact hr
  · exact hr
  · exact hr
  · exact hr
  · show GoodKey (normalizeKeyName t)
    unfold normalizeKeyName
    rw [ht.2.1]
    cases hl : keyMap.lookup t with
    | some v => exact Or.inl (lookup_mem_values hl)
    | none =>
      refine Or.inr ⟨ht.1, ht.2.1, ht.2.2, ?_, hl⟩
      cases hmt : isModifierToken t with
      | false => rfl
      | true =>
        exfalso
        unfold isModifierToken at hmt
        simp only [Bool.or_eq_true] at hmt
        rcases hmt with ((((((((ha | hb) | hc) | hd) | he) | hf) | hg) | hh) | hi) | hj
        · exact h1 (by simp [ha])
        · exact h1 (by simp [hb])
        · exact h2 (by simp [hc])
        · exact h2 (by simp [hd])
        · exact h3 (by simp [he])
        · exact h4 (by simp [hf])
        · exact h4 (by simp [hg])
        · exact h4 (by simp [hh])
        · exact h4 (by simp [hi])
        · exact h4 (by simp [hj])

/-- The fold underlying `parseKeyString` preserves the key invariant. -/
theorem foldl_goodKey :
    ∀ (ts : List Str) (r : KeyCombination), GoodKey r.key →
      (∀ t ∈ ts, GoodToken t) → GoodKey ((ts.foldl parseStep r).key)
  | [], _, hr, _ => hr
  | t :: ts, r, hr, hts =>
    foldl_goodKey ts (parseStep r t)
      (parseStep_goodKey hr (hts t (List.mem_cons_self t ts)))
      (fun x hx => hts x (List.mem_cons.mpr (Or.inr hx)))

/-- The key of any parsed combination satisfies the invariant. -/
theorem parse_goodKey (s : Str) : GoodKey (parseKeyString s).key :=
  foldl_goodKey _ _ goodKey_nil (tokens_good s)

/-- Length-1 values of the normalization table: only the space key. -/
theorem mapValues_len1 : ∀ v ∈ mapValues, v.length = 1 → v = str " " := by decide

/-- The table's left-hand sides all have length at least 2. -/
theorem mapKeys_len : ∀ p ∈ keyMap, p.1.length ≠ 1 := by decide

/-- Concrete round-trip facts for every table value of length ≠ 1. -/
theorem mapValues_roundtrip : ∀ v ∈ mapValues, v.length ≠ 1 →
    ('+' ∉ v) ∧ trimStr (toLowerStr v) = toLowerStr v ∧
    isModifierToken (toLowerStr v) = false ∧ normalizeKeyName (toLowerStr v) = v := by
  decide

theorem lookup_eq_none {m : List (Str × Str)} {x : Str}
    (h : ∀ p ∈ m, (x == p.1) = false) : m.lookup x = none := by
  induction m with
  | nil => rfl
  | cons p rest ih =>
    rw [List.lookup]
    rw [h p (List.mem_cons_self p rest)]
    exact ih (fun q hq => h q (List.mem_cons.mpr (Or.inr hq)))

theorem singleton_beq_len {ch : Char} {x : Str} (hx : x.length ≠ 1) :
    (([ch] : Str) == x) = false :=
  beq_eq_false_iff_ne.mpr (fun heq => hx (by rw [← heq]; rfl))

/-- A trim-fixed singleton is a non-whitespace character. -/
theorem not_ws_of_trim_fixed {ch : Char} (h : trimStr [ch] = [ch]) :
    Char.isWhitespace ch = false := by
  cases hws : Char.isWhitespace ch with
  | false => rfl
  | true => simp [trimStr, List.dropWhile, hws] at h

/-- What the display key of a good key satisfies: `'+'`-free, its
lower-casing is trim-fixed and not a modifier token, and normalizing its
lower-casing recovers the key. -/
theorem displayKey_props {k : Str} (h : GoodKey k) :
    ('+' ∉ displayKeyOf k) ∧
    (trimStr (toLowerStr (displayKeyOf k)) = toLowerStr (displayKeyOf k)) ∧
    (isModifierToken (toLowerStr (displayKeyOf k)) = false) ∧
    (normalizeKeyName (toLowerStr (displayKeyOf k)) = k) := by
  unfold displayKeyOf
  split_ifs with hsp hlen
  · have : k = str " " := by simpa using hsp
    subst this
    refine ⟨by decide, by decide, by decide, by decide⟩
  · -- single-character key other than the space key
    have hsp' : k ≠ str " " := by simpa using hsp
    have hplain : PlainKey k := by
      rcases h with hmem | hplain
      · exact absurd (mapValues_len1 k hmem hlen) hsp'
      · exact hplain
    obtain ⟨ch, hch⟩ : ∃ ch, k = [ch] := by
      cases k with
      | nil => simp at hlen
      | cons a t =>
        cases t with
        | nil => exact ⟨a, rfl⟩
        | cons b u => simp at hlen
    subst hch
    have hlow : Char.toLower ch = ch := by
      have := map_fixed_iff.mp hplain.2.1
      exact this ch (List.mem_cons_self ch [])
    have hne : ch ≠ '+' := fun hp => hplain.1 (by simp [hp])
    have hws : Char.isWhitespace ch = false := not_ws_of_trim_fixed hplain.2.2.1
    have hlowup : toLowerStr (toUpperStr [ch]) = [ch] := by
      show [Char.toLower (Char.toUpper ch)] = [ch]
      rw [lower_upper_of_fixed hlow]
    rw [hlowup]
    refine ⟨?_, ?_, ?_, ?_⟩
    · intro hp
      have : Char.toUpper ch = '+' := by
        have := hp
        simp [toUpperStr] at this
        exact this.symm
      exact hne (upper_eq_plus this)
    · simp [trimStr, List.dropWhile, hws]
    · unfold isModifierToken
      rw [singleton_beq_len (by decide), singleton_beq_len (by decide),
        singleton_beq_len (by decide), singleton_beq_len (by decide),
        singleton_beq_len (by decide), singleton_beq_len (by decide),
        singleton_beq_len (by decide), singleton_beq_len (by decide),
        singleton_beq_len (by decide), singleton_beq_len (by decide)]
      rfl
    · unfold normalizeKeyName
      have : toLowerStr [ch] = [ch] := by
        show [Char.toLower ch] = [ch]
        rw [hlow]
      rw [this, lookup_eq_none (fun p hp => singleton_beq_len (mapKeys_len p hp))]
  · -- multi-character (or empty) key, shown verbatim
    rcases h with hmem | hplain
    · exact mapValues_roundtrip k hmem hlen
    · rw [hplain.2.1]
      refine ⟨hplain.1, hplain.2.2.1, hplain.2.2.2.1, ?_⟩
      unfold normalizeKeyName
      rw [hplain.2.1, hplain.2.2.2.2]

theorem mem_modParts {c : KeyCombination} {x : Str} (hx : x ∈ modParts c) :
    x = str "Ctrl" ∨ x = str "Alt" ∨ x = str "Shift" ∨ x = str "Meta" := by
  unfold modParts at hx
  split_ifs at hx <;> simp at hx <;> tauto


theorem modParts_tokens (c : KeyCombination) :
    (modParts c).map (fun x => trimStr (toLowerStr x)) = modToks c := by
  rcases c with ⟨key, ctrl, alt, shift, meta⟩
  cases ctrl <;> cases alt <;> cases shift <;> cases meta <;> rfl

theorem foldl_modToks (c : KeyCombination) :
    (modToks c).foldl parseStep { key := [] } =
      { key := [], ctrl := c.ctrl, alt := c.alt, shift := c.shift, meta := c.meta } := by
  rcases c with ⟨key, ctrl, alt, shift, meta⟩
  cases ctrl <;> cases alt <;> cases shift <;> cases meta <;> rfl

/-- Parsing the canonical string of a combination with a good key recovers
the combination exactly. -/
theorem parse_format {c : KeyCombination} (h : GoodKey c.key) :
    parseKeyString (keyCombinationToString c) = c := by
  obtain ⟨hplus, htrim, hmod, hnorm⟩ := displayKey_props h
  unfold keyCombinationToString parseKeyString
  rw [toLowerStr_joinPlus]
  rw [splitOnPlus_joinPlus (by simp) ?hfree]
  case hfree =>
    intro p hp
    rcases List.mem_map.mp hp with ⟨x, hx, rfl⟩
    rcases List.mem_append.mp hx with hx | hx
    · rcases mem_modParts hx with rfl | rfl | rfl | rfl <;> decide
    · have hxd : x = displayKeyOf c.key := by simpa using hx
      subst hxd
      intro hpl
      rcases List.mem_map.mp hpl with ⟨a, ha, heq⟩
      exact hplus (lower_eq_plus heq ▸ ha)
  rw [List.map_map, List.map_append]
  have hparts : (modParts c).map (trimStr ∘ toLowerStr) = modToks c := modParts_tokens c
  rw [hparts]
  have hd : ([displayKeyOf c.key] : List Str).map (trimStr ∘ toLowerStr)
      = [toLowerStr (displayKeyOf c.key)] := by
    show [trimStr (toLowerStr (displayKeyOf c.key))] = _
    rw [htrim]
  rw [hd, List.foldl_append, foldl_modToks]
  unfold isModifierToken at hmod
  simp only [Bool.or_eq_false_iff] at hmod
  obtain ⟨⟨⟨⟨⟨⟨⟨⟨⟨m1, m2⟩, m3⟩, m4⟩, m5⟩, m6⟩, m7⟩, m8⟩, m9⟩, m10⟩ := hmod
  show parseStep _ _ = c
  unfold parseStep
  simp only [m1, m2, m3, m4, m5, m6, m7, m8, m9, m10, Bool.or_false, Bool.false_or]
  simp only [Bool.false_eq_true, if_false, hnorm]

/-- One round of parse/format reaches a parse fixed point. -/
theorem parse_format_parse (s : Str) :
    parseKeyString (keyCombinationToString (parseKeyString s)) = parseKeyString s :=
  parse_format (parse_goodKey s)

/-! ### Basic facts about the manager operations -/

theorem startListening_isListening (st : ManagerState) :
    (KeyboardShortcutManager.startListening st).isListening = true := by
  unfold KeyboardShortcutManager.startListening
  split
  · rfl
  · next h => simpa using h

theorem startListening_shortcuts (st : ManagerState) :
    (KeyboardShortcutManager.startListening st).shortcuts = st.shortcuts := by
  unfold KeyboardShortcutManager.startListening
  split <;> rfl

theorem stopListening_isListening (st : ManagerState) :
    (KeyboardShortcutManager.stopListening st).isListening = false := by
  unfold KeyboardShortcutManager.stopListening
  split
  · rfl
  · next h => simpa using h

theorem stopListening_shortcuts (st : ManagerState) :
    (KeyboardShortcutManager.stopListening st).shortcuts = st.shortcuts := by
  unfold KeyboardShortcutManager.stopListening
  split <;> rfl

theorem lookup_some_ne_nil {β : Type} {l : List (Str × β)} {a : Str} {b : β}
    (h : l.lookup a = some b) : l ≠ [] := by
  cases l with
  | nil => simp [List.lookup] at h
  | cons p rest => simp

theorem updateOwner_eq_nil {l : List (Str × List RegisteredShortcut)} {cid : Str}
    {f : List RegisteredShortcut → List RegisteredShortcut} :
    updateOwner l cid f = [] ↔ l = [] := by
  simp [updateOwner]

theorem mem_updateOwner {l : List (Str × List RegisteredShortcut)} {cid : Str}
    {f : List RegisteredShortcut → List RegisteredShortcut}
    {p : Str × List RegisteredShortcut} (hp : p ∈ updateOwner l cid f) :
    ∃ q ∈ l, p = if q.1 = cid then (q.1, f q.2) else q := by
  rcases List.mem_map.mp hp with ⟨q, hq, rfl⟩
  exact ⟨q, hq, rfl⟩

theorem lookup_updateOwner (l : List (Str × List RegisteredShortcut)) (cid : Str)
    (f : List RegisteredShortcut → List RegisteredShortcut) :
    (updateOwner l cid f).lookup cid = (l.lookup cid).map f := by
  induction l with
  | nil => rfl
  | cons p rest ih =>
    by_cases hp : p.1 = cid
    · show List.lookup cid ((if p.1 = cid then (p.1, f p.2) else p) :: _) = _
      rw [if_pos hp]
      rw [List.lookup, List.lookup]
      have : (cid == p.1) = true := by simp [hp]
      rw [this]
      simp
    · show List.lookup cid ((if p.1 = cid then (p.1, f p.2) else p) :: _) = _
      rw [if_neg hp]
      rw [List.lookup, List.lookup]
      have : (cid == p.1) = false := by simp; exact fun h => hp h.symm
      rw [this]
      exact ih

theorem lookup_append_of_none {β : Type} {l l2 : List (Str × β)} {a : Str}
    (h : l.lookup a = none) : (l ++ l2).lookup a = l2.lookup a := by
  induction l with
  | nil => rfl
  | cons p rest ih =>
    obtain ⟨k, v⟩ := p
    cases hak : a == k with
    | true => simp [List.lookup, hak] at h
    | false =>
      simp only [List.lookup, hak] at h
      rw [List.cons_append]
      simp only [List.lookup, hak]
      exact ih h

/-! ### The dispatch loop as a filter over the flattened registry -/

theorem fire_foldl (e : KeyEvent) (regs : List RegisteredShortcut)
    (acc : List RegisteredShortcut) :
    regs.foldl (fun acc2 s => if KeyboardShortcutManager.shouldFire e s
        then acc2 ++ [s] else acc2) acc
      = acc ++ regs.filter (fun s => KeyboardShortcutManager.shouldFire e s) := by
  induction regs generalizing acc with
  | nil => simp
  | cons s rest ih =>
    rw [List.foldl_cons, List.filter_cons]
    cases hf : KeyboardShortcutManager.shouldFire e s with
    | true =>
      simp only [hf, if_true]
      rw [ih]
      simp
    | false =>
      simp only [hf, Bool.false_eq_true, if_false]
      rw [ih]

/-- The dispatcher fires exactly the firing registrations of the flattened
registry, owners in registry (insertion) order, registrations within an
owner in insertion order — in particular there is no early termination
after the first match. -/
theorem handleKeyDown_eq (st : ManagerState) (e : KeyEvent) :
    KeyboardShortcutManager.handleKeyDown st e
      = (st.shortcuts.flatMap (fun p => p.2)).filter
          (fun s => KeyboardShortcutManager.shouldFire e s) := by
  unfold KeyboardShortcutManager.handleKeyDown
  suffices h : ∀ (l : List (Str × List RegisteredShortcut)) (acc : List RegisteredShortcut),
      l.foldl (fun acc p => p.2.foldl (fun acc2 s =>
          if KeyboardShortcutManager.shouldFire e s then acc2 ++ [s] else acc2) acc) acc
        = acc ++ (l.flatMap (fun p => p.2)).filter
            (fun s => KeyboardShortcutManager.shouldFire e s) by
    rw [h st.shortcuts []]; rfl
  intro l
  induction l with
  | nil => simp
  | cons p rest ih =>
    intro acc
    rw [List.foldl_cons, fire_foldl, ih]
    simp [List.filter_append]

/-! ### Listening-flag invariant -/

theorem register_fst_isListening (st : ManagerState) (cid : Str)
    (defs : List ShortcutDefinition) :
    (KeyboardShortcutManager.register st cid defs).1.isListening = true := by
  unfold KeyboardShortcutManager.register
  exact startListening_isListening _

theorem register_fst_shortcuts_ne (st : ManagerState) (cid : Str)
    (defs : List ShortcutDefinition) :
    (KeyboardShortcutManager.register st cid defs).1.shortcuts ≠ [] := by
  unfold KeyboardShortcutManager.register
  rw [startListening_shortcuts]
  simp only [Ne, updateOwner_eq_nil]
  split
  · simp
  · next hn =>
    intro hnil
    apply hn
    rw [hnil]
    rfl

theorem deregister_inv (st : ManagerState) (cid : Str) (keys : List Str)
    (ih : st.isListening = true ↔ st.shortcuts ≠ []) :
    (KeyboardShortcutManager.deregister st cid keys).1.isListening = true
      ↔ (KeyboardShortcutManager.deregister st cid keys).1.shortcuts ≠ [] := by
  unfold KeyboardShortcutManager.deregister
  cases hl : st.shortcuts.lookup cid with
  | none => exact ih
  | some regs =>
    have hne : st.shortcuts ≠ [] := lookup_some_ne_nil hl
    simp only
    split
    · split
      · next hflen =>
        rw [stopListening_isListening, stopListening_shortcuts]
        simp only [List.length_eq_zero] at hflen
        simp [hflen]
      · next hflen =>
        simp only [List.length_eq_zero] at hflen
        simp [ih.mpr hne, hflen]
    · split
      · next hulen =>
        exfalso
        simp only [List.length_eq_zero, updateOwner_eq_nil] at hulen
        exact hne hulen
      · next hulen =>
        simp only [List.length_eq_zero, updateOwner_eq_nil] at hulen
        simp [ih.mpr hne, hulen, updateOwner_eq_nil]

theorem enable_inv (st : ManagerState) (cid : Str) (keys : List Str)
    (ih : st.isListening = true ↔ st.shortcuts ≠ []) :
    (KeyboardShortcutManager.enable st cid keys).1.isListening = true
      ↔ (KeyboardShortcutManager.enable st cid keys).1.shortcuts ≠ [] := by
  unfold KeyboardShortcutManager.enable
  cases hl : st.shortcuts.lookup cid with
  | none => exact ih
  | some regs =>
    have hne : st.shortcuts ≠ [] := lookup_some_ne_nil hl
    simp [ih.mpr hne, updateOwner_eq_nil, hne]

theorem disable_inv (st : ManagerState) (cid : Str) (keys : List Str)
    (ih : st.isListening = true ↔ st.shortcuts ≠ []) :
    (KeyboardShortcutManager.disable st cid keys).1.isListening = true
      ↔ (KeyboardShortcutManager.disable st cid keys).1.shortcuts ≠ [] := by
  unfold KeyboardShortcutManager.disable
  cases hl : st.shortcuts.lookup cid with
  | none => exact ih
  | some regs =>
    have hne : st.shortcuts ≠ [] := lookup_some_ne_nil hl
    simp [ih.mpr hne, updateOwner_eq_nil, hne]

theorem clearComponent_inv (st : ManagerState) (cid : Str)
    (ih : st.isListening = true ↔ st.shortcuts ≠ []) :
    (KeyboardShortcutManager.clearComponent st cid).1.isListening = true
      ↔ (KeyboardShortcutManager.clearComponent st cid).1.shortcuts ≠ [] := by
  unfold KeyboardShortcutManager.clearComponent
  simp only
  split
  · next hflen =>
    rw [stopListening_isListening, stopListening_shortcuts]
    simp only [List.length_eq_zero] at hflen
    simp [hflen]
  · next hflen =>
    simp only [List.length_eq_zero] at hflen
    have hne : st.shortcuts ≠ [] := by
      intro hnil
      exact hflen (by rw [hnil]; rfl)
    simp [ih.mpr hne, hflen]

theorem subscribe_fields (st : ManagerState) (l : Nat) :
    (KeyboardShortcutManager.subscribe st l).isListening = st.isListening ∧
    (KeyboardShortcutManager.subscribe st l).shortcuts = st.shortcuts := by
  unfold KeyboardShortcutManager.subscribe
  split <;> exact ⟨rfl, rfl⟩

/-- C1 counterexample: from a fresh manager, `register("a", [])` is a
reachable step that turns the listening flag on while no owner has any
registration — refuting "listening is true iff at least one owner has at
least one registration". -/
theorem claim1_counterexample :
    Reachable cexState1 ∧ cexState1.isListening = true ∧
      ∀ p ∈ cexState1.shortcuts, p.2 = [] :=
  ⟨Reachable.register initialState (str "a") [] Reachable.init, by decide, by decide⟩

/-- C1 (amended): for every reachable state, the listening flag is true iff
the registry map is non-empty (has at least one owner entry).  Because
`register` with an empty definitions list creates an owner entry with an
empty registration list, this is weaker than "at least one owner has at
least one registration"; every operation that could change map emptiness
(register, deregister, clearComponent, destroy) re-establishes the
invariant, so deleting the last owner entry unsubscribes the manager from
the key-event stream and the first register call of any kind re-subscribes
it. -/
theorem claim1_listening_iff_map_nonempty (st : ManagerState) (h : Reachable st) :
    st.isListening = true ↔ st.shortcuts ≠ [] := by
  induction h with
  | init => simp [initialState]
  | register st cid defs _ _ =>
    simp [register_fst_isListening st cid defs, register_fst_shortcuts_ne st cid defs]
  | deregister st cid keys _ ih => exact deregister_inv st cid keys ih
  | enable st cid keys _ ih => exact enable_inv st cid keys ih
  | disable st cid keys _ ih => exact disable_inv st cid keys ih
  | clearComponent st cid _ ih => exact clearComponent_inv st cid ih
  | destroy st _ _ =>
    unfold KeyboardShortcutManager.destroy
    simp [stopListening_isListening]
  | subscribe st l _ ih =>
    rw [(subscribe_fields st l).1, (subscribe_fields st l).2]
    exact ih
  | unsubscribe st l _ ih => exact ih

/-- C1 witness: a concrete register call on a fresh manager turns the
listening flag on, via the invariant. -/
theorem claim1_witness :
    (KeyboardShortcutManager.register initialState (str "a") [wDefA]).1.isListening = true :=
  (claim1_listening_iff_map_nonempty _
    (Reachable.register initialState (str "a") [wDefA] Reachable.init)).mpr (by decide)

/-! ### No-empty-owner-lists invariant -/

theorem register_fst_shortcuts (st : ManagerState) (cid : Str)
    (defs : List ShortcutDefinition) :
    (KeyboardShortcutManager.register st cid defs).1.shortcuts
      = updateOwner (if (st.shortcuts.lookup cid).isNone = true
            then st.shortcuts ++ [(cid, [])] else st.shortcuts) cid
          (fun regs => regs ++ defs.enum.map
            (fun q => KeyboardShortcutManager.buildShortcut cid (st.nextId + q.1) q.2)) := by
  unfold KeyboardShortcutManager.register
  rw [startListening_shortcuts]

theorem mem_shortcuts_mk {sc : List (Str × List RegisteredShortcut)} {b : Bool}
    {el : List Nat} {n : Nat} {p : Str × List RegisteredShortcut} :
    p ∈ (ManagerState.mk sc b el n).shortcuts ↔ p ∈ sc := Iff.rfl

theorem register_preserves_ne (st : ManagerState) (cid : Str)
    (defs : List ShortcutDefinition) (hdefs : defs ≠ [])
    (ih : ∀ p ∈ st.shortcuts, p.2 ≠ []) :
    ∀ p ∈ (KeyboardShortcutManager.register st cid defs).1.shortcuts, p.2 ≠ [] := by
  intro p hp
  rw [register_fst_shortcuts] at hp
  rcases mem_updateOwner hp with ⟨q, hq, rfl⟩
  have hnr : defs.enum.map
      (fun q => KeyboardShortcutManager.buildShortcut cid (st.nextId + q.1) q.2) ≠ [] := by
    intro h
    apply hdefs
    have hlen := congrArg List.length h
    simp at hlen
    exact hlen
  by_cases hqc : q.1 = cid
  · rw [if_pos hqc]
    simp only
    intro hcontra
    exact hnr (List.append_eq_nil.mp hcontra).2
  · rw [if_neg hqc]
    split at hq
    · rcases List.mem_append.mp hq with hq | hq
      · exact ih q hq
      · have hq2 : q = (cid, []) := by simpa using hq
        exact absurd (congrArg Prod.fst hq2) hqc
    · exact ih q hq

theorem deregister_preserves_ne (st : ManagerState) (cid : Str) (keys : List Str)
    (ih : ∀ p ∈ st.shortcuts, p.2 ≠ []) :
    ∀ p ∈ (KeyboardShortcutManager.deregister st cid keys).1.shortcuts, p.2 ≠ [] := by
  unfold KeyboardShortcutManager.deregister
  cases hl : st.shortcuts.lookup cid with
  | none => exact ih
  | some regs =>
    simp only
    split
    · split
      · intro p hp
        rw [stopListening_shortcuts] at hp
        exact ih p (List.mem_filter.mp hp).1
      · intro p hp
        exact ih p (List.mem_filter.mp hp).1
    · next hrem =>
      simp only [List.length_eq_zero] at hrem
      split
      · intro p hp
        rw [stopListening_shortcuts, mem_shortcuts_mk] at hp
        rcases mem_updateOwner hp with ⟨q, hq, rfl⟩
        by_cases hqc : q.1 = cid
        · rw [if_pos hqc]; exact hrem
        · rw [if_neg hqc]; exact ih q hq
      · intro p hp
        rw [mem_shortcuts_mk] at hp
        rcases mem_updateOwner hp with ⟨q, hq, rfl⟩
        by_cases hqc : q.1 = cid
        · rw [if_pos hqc]; exact hrem
        · rw [if_neg hqc]; exact ih q hq

theorem enable_preserves_ne (st : ManagerState) (cid : Str) (keys : List Str)
    (ih : ∀ p ∈ st.shortcuts, p.2 ≠ []) :
    ∀ p ∈ (KeyboardShortcutManager.enable st cid keys).1.shortcuts, p.2 ≠ [] := by
  unfold KeyboardShortcutManager.enable
  cases hl : st.shortcuts.lookup cid with
  | none => exact ih
  | some regs =>
    intro p hp
    rw [mem_shortcuts_mk] at hp
    rcases mem_updateOwner hp with ⟨q, hq, rfl⟩
    by_cases hqc : q.1 = cid
    · rw [if_pos hqc]
      simp only [Ne, List.map_eq_nil_iff]
      exact ih q hq
    · rw [if_neg hqc]; exact ih q hq

theorem disable_preserves_ne (st : ManagerState) (cid : Str) (keys : List Str)
    (ih : ∀ p ∈ st.shortcuts, p.2 ≠ []) :
    ∀ p ∈ (KeyboardShortcutManager.disable st cid keys).1.shortcuts, p.2 ≠ [] := by
  unfold KeyboardShortcutManager.disable
  cases hl : st.shortcuts.lookup cid with
  | none => exact ih
  | some regs =>
    intro p hp
    rw [mem_shortcuts_mk] at hp
    rcases mem_updateOwner hp with ⟨q, hq, rfl⟩
    by_cases hqc : q.1 = cid
    · rw [if_pos hqc]
      simp only [Ne, List.map_eq_nil_iff]
      exact ih q hq
    · rw [if_neg hqc]; exact ih q hq

/-- C3 counterexample: `register("a", [])` is a reachable operation that
leaves owner `"a"` mapped to an empty registration list — refuting
"after every operation no ownerId is mapped to an empty list". -/
theorem claim3_counterexample :
    Reachable cexState1 ∧ (str "a", ([] : List RegisteredShortcut)) ∈ cexState1.shortcuts :=
  ⟨Reachable.register initialState (str "a") [] Reachable.init, by decide⟩

/-- C3 (amended): in every state reachable when each `register` call
supplies at least one definition, no ownerId is mapped to an empty list of
registrations; `register` with an empty definitions list is the sole
operation that creates (and the only one that keeps) an empty owner
entry. -/
theorem claim3_no_empty_owner_lists (st : ManagerState) (h : ReachableNE st) :
    ∀ p ∈ st.shortcuts, p.2 ≠ [] := by
  induction h with
  | init => simp [initialState]
  | register st cid defs hdefs _ ih => exact register_preserves_ne st cid defs hdefs ih
  | deregister st cid keys _ ih => exact deregister_preserves_ne st cid keys ih
  | enable st cid keys _ ih => exact enable_preserves_ne st cid keys ih
  | disable st cid keys _ ih => exact disable_preserves_ne st cid keys ih
  | clearComponent st cid _ ih =>
    intro p hp
    simp only [KeyboardShortcutManager.clearComponent] at hp
    split at hp
    · rw [stopListening_shortcuts, mem_shortcuts_mk] at hp
      exact ih p (List.mem_filter.mp hp).1
    · rw [mem_shortcuts_mk] at hp
      exact ih p (List.mem_filter.mp hp).1
  | destroy st _ _ => simp [KeyboardShortcutManager.destroy]
  | subscribe st l _ ih =>
    intro p hp
    rw [(subscribe_fields st l).2] at hp
    exact ih p hp
  | unsubscribe st l _ ih => exact ih

/-- C3 witness: after a concrete non-empty register call on a fresh
manager, the resulting owner entry is non-empty (instance of the
invariant at that entry). -/
theorem claim3_witness :
    (str "a", [KeyboardShortcutManager.buildShortcut (str "a") 0 wDefA]).2
      ≠ ([] : List RegisteredShortcut) :=
  claim3_no_empty_owner_lists _
    (ReachableNE.register initialState (str "a") [wDefA] (by simp) ReachableNE.init)
    _ (by decide)

/-! ### Unknown-owner behaviour -/

theorem count_pair_map (L : List Nat) (l : Nat) (e : ManagerEvent) :
    (L.map (fun x => (x, e))).count (l, e) = L.count l := by
  induction L with
  | nil => rfl
  | cons a t ih =>
    rw [List.map_cons, List.count_cons, List.count_cons, ih]
    have hcond : ((a, e) == (l, e)) = (a == l) := by
      show ((a == l && e == e) = (a == l))
      rw [beq_self_eq_true]
      exact Bool.and_true _
    rw [hcond]

theorem deregister_none (st : ManagerState) (cid : Str) (keys : List Str)
    (hl : st.shortcuts.lookup cid = none) :
    KeyboardShortcutManager.deregister st cid keys = (st, []) := by
  unfold KeyboardShortcutManager.deregister
  rw [hl]

theorem enable_none (st : ManagerState) (cid : Str) (keys : List Str)
    (hl : st.shortcuts.lookup cid = none) :
    KeyboardShortcutManager.enable st cid keys = (st, []) := by
  unfold KeyboardShortcutManager.enable
  rw [hl]

theorem disable_none (st : ManagerState) (cid : Str) (keys : List Str)
    (hl : st.shortcuts.lookup cid = none) :
    KeyboardShortcutManager.disable st cid keys = (st, []) := by
  unfold KeyboardShortcutManager.disable
  rw [hl]

/-- C2 counterexample: on a fresh manager (owner `"x"` unknown),
`deregister`, `enable` and `disable` emit no event at all (the early
`return` precedes the `emit` call) — refuting "still emits the
corresponding event". -/
theorem claim2_counterexample :
    (KeyboardShortcutManager.deregister initialState (str "x") [str "Ctrl+S"]).2 = [] ∧
    (KeyboardShortcutManager.enable initialState (str "x") [str "Ctrl+S"]).2 = [] ∧
    (KeyboardShortcutManager.disable initialState (str "x") [str "Ctrl+S"]).2 = [] := by
  refine ⟨?_, ?_, ?_⟩ <;> decide

/-- C2 (amended): for every ownerId with no entry in the registry,
`deregister`, `enable` and `disable` leave the whole manager state
unchanged and raise no error, but — contrary to the spec — emit no event:
the early return precedes the emission. -/
theorem claim2_unknown_owner_noop (st : ManagerState) (cid : Str) (keys : List Str)
    (hl : st.shortcuts.lookup cid = none) :
    KeyboardShortcutManager.deregister st cid keys = (st, []) ∧
    KeyboardShortcutManager.enable st cid keys = (st, []) ∧
    KeyboardShortcutManager.disable st cid keys = (st, []) :=
  ⟨deregister_none st cid keys hl, enable_none st cid keys hl,
    disable_none st cid keys hl⟩

/-- C2 witness: the three operations at a concrete unknown owner. -/
theorem claim2_witness :
    KeyboardShortcutManager.deregister initialState (str "x") [str "Ctrl+S"]
        = (initialState, []) ∧
    KeyboardShortcutManager.enable initialState (str "x") [str "Ctrl+S"]
        = (initialState, []) ∧
    KeyboardShortcutManager.disable initialState (str "x") [str "Ctrl+S"]
        = (initialState, []) :=
  claim2_unknown_owner_noop initialState (str "x") [str "Ctrl+S"] (by decide)

/-- C5: the matcher applies exactly this modifier rule: the ctrl clause is
satisfied iff `combo.ctrl` equals `event.ctrlKey || event.metaKey` (so when
`combo.ctrl` is true it holds iff the physical ctrl or meta flag is set);
the meta clause requires the physical meta flag when `combo.meta` is true
and is not checked when `combo.meta` is false; alt and shift are strict
per-flag equality; and the whole match is the conjunction of these clauses
with the key comparison. -/
theorem claim5_matcher_modifier_rule (e : KeyEvent) (c : KeyCombination) :
    matchesKeyCombination e c
      = (keyTokenMatches e c && (c.ctrl == (e.ctrlKey || e.metaKey)) &&
         (c.alt == e.altKey) && (c.shift == e.shiftKey) &&
         (if c.meta then e.metaKey else true)) := by
  rcases c with ⟨k, u, v, w, x⟩
  cases x <;> rfl

/-- C7: one round of normalization is stable and idempotent:
`format(parse(format(parse(s)))) = format(parse(s))` for every key text
`s` (where `parse` is `parseKeyString` and `format` is
`keyCombinationToString`). -/
theorem claim7_roundtrip_stable (s : Str) :
    keyCombinationToString (parseKeyString (keyCombinationToString (parseKeyString s)))
      = keyCombinationToString (parseKeyString s) :=
  congrArg keyCombinationToString (parse_format_parse s)

/-- C6: dispatch fires every enabled, matching, non-suppressed
registration — no early termination — in registry order: owners in the
order their entries were inserted into the registry map, and within one
owner, registrations in insertion order (the filter over the flattened
registry); in particular, two registrations A then B for the same owner
with the identical combination, both enabled, both run, A before B, for
one matching event. -/
theorem claim6_dispatch_order (st : ManagerState) (e : KeyEvent) (o : Str)
    (A B : RegisteredShortcut) :
    (KeyboardShortcutManager.handleKeyDown st e
      = (st.shortcuts.flatMap (fun p => p.2)).filter
          (fun s => KeyboardShortcutManager.shouldFire e s)) ∧
    (st.shortcuts = [(o, [A, B])] → A.enabled = true → B.enabled = true →
      B.keys = A.keys → matchesKeyCombination e A.keys = true →
      KeyboardShortcutManager.isInputField e = false →
      KeyboardShortcutManager.handleKeyDown st e = [A, B]) := by
  refine ⟨handleKeyDown_eq st e, ?_⟩
  intro hst hA hB hBK hmatch hinput
  rw [handleKeyDown_eq, hst]
  have hfA : KeyboardShortcutManager.shouldFire e A = true := by
    unfold KeyboardShortcutManager.shouldFire
    rw [hA, hmatch, hinput]
    simp
  have hfB : KeyboardShortcutManager.shouldFire e B = true := by
    unfold KeyboardShortcutManager.shouldFire
    rw [hB, hBK, hmatch, hinput]
    simp
  simp [hfA, hfB]

/-- C6 witness: owner `"o"` holds two enabled registrations for `"s"`;
one plain `s` press on a non-input target runs both, first-registered
first. -/
theorem claim6_witness :
    KeyboardShortcutManager.handleKeyDown wStateAB wEvDivS = [wRegPlain, wRegB] :=
  (claim6_dispatch_order wStateAB wEvDivS (str "o") wRegPlain wRegB).2
    rfl rfl rfl rfl (by decide) (by decide)

/-- C4: on a text-input target, an enabled matching registration whose
combination has ctrl, alt and meta all false never fires (shift is not
considered), while an enabled matching registration with ctrl, alt or meta
set does fire. -/
theorem claim4_input_suppression (st : ManagerState) (e : KeyEvent)
    (r : RegisteredShortcut) (hin : KeyboardShortcutManager.isInputField e = true) :
    (r.keys.ctrl = false → r.keys.alt = false → r.keys.meta = false →
      r ∉ KeyboardShortcutManager.handleKeyDown st e) ∧
    ((r.keys.ctrl || r.keys.alt || r.keys.meta) = true → r.enabled = true →
      matchesKeyCombination e r.keys = true →
      r ∈ st.shortcuts.flatMap (fun p => p.2) →
      r ∈ KeyboardShortcutManager.handleKeyDown st e) := by
  constructor
  · intro hc ha hm hmem
    rw [handleKeyDown_eq] at hmem
    have hfire := (List.mem_filter.mp hmem).2
    unfold KeyboardShortcutManager.shouldFire at hfire
    rw [hin, hc, ha, hm] at hfire
    simp at hfire
  · intro hmods hen hmatch hmem
    rw [handleKeyDown_eq]
    apply List.mem_filter.mpr
    refine ⟨hmem, ?_⟩
    unfold KeyboardShortcutManager.shouldFire
    rw [hen, hmatch, hin]
    simp only [Bool.or_eq_true] at hmods
    rcases hmods with (hc | ha) | hm
    · simp [hc]
    · simp [ha]
    · simp [hm]

/-- C4 witness: with owner `"o"` holding registrations for `"s"` and
`"Ctrl+S"`, a plain `s` press on an INPUT target does not fire the plain
registration, while `Ctrl+s` on the same target fires the Ctrl one. -/
theorem claim4_witness :
    wRegPlain ∉ KeyboardShortcutManager.handleKeyDown wStateInput wEvInputS ∧
    wRegCtrl ∈ KeyboardShortcutManager.handleKeyDown wStateInput wEvInputCtrlS :=
  ⟨(claim4_input_suppression wStateInput wEvInputS wRegPlain (by decide)).1 rfl rfl rfl,
   (claim4_input_suppression wStateInput wEvInputCtrlS wRegCtrl (by decide)).2
     (by decide) rfl (by decide) (by decide)⟩

/-- C9: parsing the empty string yields a combination whose key is the
empty string; `register` accepts such a definition without rejection
(appending it to the owner's list); and against every real event (one with
a non-empty primary key) the combination never matches, so dispatch never
fires a registration carrying it. -/
theorem claim9_empty_key_dead (st : ManagerState) (cid : Str) (cb : Nat)
    (e : KeyEvent) (he : e.key ≠ []) :
    parseKeyString [] = { key := [] } ∧
    matchesKeyCombination e (parseKeyString []) = false ∧
    KeyboardShortcutManager.getComponentKeys
        ((KeyboardShortcutManager.register st cid [⟨.inl [], cb, none⟩]).1) cid
      = KeyboardShortcutManager.getComponentKeys st cid
          ++ [KeyboardShortcutManager.buildShortcut cid st.nextId ⟨.inl [], cb, none⟩] ∧
    (∀ st' : ManagerState, ∀ r ∈ KeyboardShortcutManager.handleKeyDown st' e,
      r.keys ≠ parseKeyString []) := by
  have hparse : parseKeyString [] = { key := [] } := by decide
  have hmatch : matchesKeyCombination e (parseKeyString []) = false := by
    rw [hparse]
    have hek : (if e.key.length = 1 then toLowerStr e.key else e.key) ≠ [] := by
      split
      · intro hnil
        apply he
        simpa [toLowerStr] using hnil
      · exact he
    have hsp : ((([] : Str) == str " ")) = false := by decide
    unfold matchesKeyCombination
    simp [hek, hsp]
  refine ⟨hparse, hmatch, ?_, ?_⟩
  · unfold KeyboardShortcutManager.getComponentKeys
    rw [register_fst_shortcuts, lookup_updateOwner]
    cases hl : st.shortcuts.lookup cid with
    | none =>
      simp [lookup_append_of_none hl, List.lookup]
    | some regs =>
      simp [hl]
  · intro st' r hr hkeys
    rw [handleKeyDown_eq] at hr
    have hfire := (List.mem_filter.mp hr).2
    unfold KeyboardShortcutManager.shouldFire at hfire
    rw [hkeys, hmatch] at hfire
    simp at hfire

/-- C9 witness: the dead-registration facts at a fresh manager, owner
`"a"`, and a concrete `s` key event. -/
theorem claim9_witness :
    parseKeyString [] = { key := [] } ∧
    matchesKeyCombination wEvDivS (parseKeyString []) = false ∧
    KeyboardShortcutManager.getComponentKeys
        ((KeyboardShortcutManager.register initialState (str "a")
          [⟨.inl [], 0, none⟩]).1) (str "a")
      = KeyboardShortcutManager.getComponentKeys initialState (str "a")
          ++ [KeyboardShortcutManager.buildShortcut (str "a") initialState.nextId
                ⟨.inl [], 0, none⟩] ∧
    (∀ st' : ManagerState, ∀ r ∈ KeyboardShortcutManager.handleKeyDown st' wEvDivS,
      r.keys ≠ parseKeyString []) :=
  claim9_empty_key_dead initialState (str "a") 0 wEvDivS (by decide)

/-- C10: the event bus is set-like: subscribing an already-subscribed
listener changes nothing; an emitted event invokes a subscribed listener
exactly once; unsubscribing removes the listener, and events emitted
afterwards do not invoke it. -/
theorem claim10_event_bus_set (st : ManagerState) (l : Nat) (e : ManagerEvent)
    (hmem : l ∈ st.eventListeners) (hnd : st.eventListeners.Nodup) :
    KeyboardShortcutManager.subscribe st l = st ∧
    (KeyboardShortcutManager.emit st e).count (l, e) = 1 ∧
    l ∉ (KeyboardShortcutManager.unsubscribeListener st l).eventListeners ∧
    (KeyboardShortcutManager.emit
        (KeyboardShortcutManager.unsubscribeListener st l) e).count (l, e) = 0 := by
  refine ⟨?_, ?_, ?_, ?_⟩
  · unfold KeyboardShortcutManager.subscribe
    simp [hmem]
  · show (st.eventListeners.map (fun x => (x, e))).count (l, e) = 1
    rw [count_pair_map]
    exact List.count_eq_one_of_mem hnd hmem
  · unfold KeyboardShortcutManager.unsubscribeListener
    simp
  · show ((st.eventListeners.filter (fun x => x != l)).map
        (fun x => (x, e))).count (l, e) = 0
    rw [count_pair_map]
    exact List.count_eq_zero.mpr (by simp)

/-- C10 witness: a concrete bus with listeners 5 and 9. -/
theorem claim10_witness :
    KeyboardShortcutManager.subscribe wBusState 5 = wBusState ∧
    (KeyboardShortcutManager.emit wBusState wEvClear).count (5, wEvClear) = 1 ∧
    5 ∉ (KeyboardShortcutManager.unsubscribeListener wBusState 5).eventListeners ∧
    (KeyboardShortcutManager.emit
        (KeyboardShortcutManager.unsubscribeListener wBusState 5) wEvClear).count
      (5, wEvClear) = 0 :=
  claim10_event_bus_set wBusState 5 wEvClear (by decide) (by decide)

/-! ### Snapshot sharing -/

theorem getD_concat_length {α : Type} (l : List α) (x : α) (d : α) :
    (l ++ [x]).getD l.length d = x := by
  rw [List.getD_eq_getElem?_getD, List.getElem?_concat_length]
  rfl

theorem getD_append_lt {α : Type} (l l2 : List α) (j : Nat) (d : α)
    (h : j < l.length) : (l ++ l2).getD j d = l.getD j d := by
  rw [List.getD_eq_getElem?_getD, List.getElem?_append, if_pos h,
    List.getD_eq_getElem?_getD]

theorem getD_set_ne {α : Type} (l : List α) (a : α) (i j : Nat) (d : α)
    (h : i ≠ j) : (l.set i a).getD j d = l.getD j d := by
  rw [List.getD_eq_getElem?_getD, List.getElem?_set_ne h, List.getD_eq_getElem?_getD]

/-- C8 counterexample: the snapshot returned by `getAllShortcuts` shares
its registration arrays with the registry, so pushing a registration onto
an array reached through the snapshot changes what the registry's readers
see — refuting "mutating the value returned by getAllShortcuts leaves the
registry's state unchanged". -/
theorem claim8_counterexample :
    SnapshotModel.viewOf
        (SnapshotModel.arrayPush (SnapshotModel.getAllShortcuts cexHeap 0).1 0 wRegB) 0
      ≠ SnapshotModel.viewOf cexHeap 0 := by decide

/-- C8 (amended): `getAllShortcuts` returns a shallow copy: the returned
mapping is a fresh `Map` object holding the same entries, so mutating the
returned mapping itself (here: deleting an owner entry from it) leaves the
registry's view unchanged — but the registration lists are shared, not
copied (see the counterexample). -/
theorem claim8_shallow_copy (h : SnapshotModel.Heap) (mref : Nat)
    (hm : mref < h.maps.length) (k : Str) :
    ((SnapshotModel.getAllShortcuts h mref).1.maps.getD
        (SnapshotModel.getAllShortcuts h mref).2 [])
      = h.maps.getD mref [] ∧
    SnapshotModel.viewOf
        (SnapshotModel.mapDelete (SnapshotModel.getAllShortcuts h mref).1
          (SnapshotModel.getAllShortcuts h mref).2 k) mref
      = SnapshotModel.viewOf h mref := by
  unfold SnapshotModel.getAllShortcuts SnapshotModel.mapDelete SnapshotModel.viewOf
  simp only
  constructor
  · exact getD_concat_length h.maps _ []
  · rw [getD_set_ne _ _ _ _ _ (Nat.ne_of_gt hm), getD_append_lt _ _ _ _ hm]

/-- C8 witness: the shallow-copy facts at the concrete one-owner heap. -/
theorem claim8_witness :
    ((SnapshotModel.getAllShortcuts cexHeap 0).1.maps.getD
        (SnapshotModel.getAllShortcuts cexHeap 0).2 [])
      = cexHeap.maps.getD 0 [] ∧
    SnapshotModel.viewOf
        (SnapshotModel.mapDelete (SnapshotModel.getAllShortcuts cexHeap 0).1
          (SnapshotModel.getAllShortcuts cexHeap 0).2 (str "a")) 0
      = SnapshotModel.viewOf cexHeap 0 :=
  claim8_shallow_copy cexHeap 0 (by decide) (str "a")
